import Mathlib

/-!
Shallow embedding of the BookPriceFinder source-aggregation core:
the data model of `bookfinder/models.py`, the aggregator of
`bookfinder/search.py`, the deal matcher `check_wishlist_deals` of
`bookfinder/db/database.py`, and the result cache and rate limiter of
`bookfinder/web.py`.

Python floats are modelled as rationals, a Python function that may raise is
modelled as `Except String`, Python dicts are modelled as insertion-ordered
association lists with the corresponding lookup/overwrite/min/delete
operations, and Python's stable `list.sort` is modelled by `List.mergeSort`
(which is a stable sort, hence produces the identical list for a total
preorder key).
-/

namespace BookFinder

/-- Condition enum from models.py. -/
inductive Condition where
  | new
  | used
  | unknown
  deriving DecidableEq, Repr

/-- BookResult dataclass from models.py: a single price result from a source. -/
structure BookResult where
  title : String
  author : String
  price : ℚ
  currency : String
  condition : Condition
  source : String
  url : String
  isbn : String := ""
  shipping : Option ℚ := none
  deriving DecidableEq, Repr

/-- models.py `BookResult.total_price`: `self.price + (self.shipping or 0.0)`.
For a rational-valued `shipping`, `self.shipping or 0.0` is `getD 0` except that
Python also maps `shipping = 0.0` to `0.0`, which is the same value. -/
def BookResult.total_price (r : BookResult) : ℚ :=
  r.price + r.shipping.getD 0

/-- BookQuery dataclass from models.py. -/
structure BookQuery where
  query : String
  isbn : String := ""
  max_results : Int := 5
  deriving DecidableEq, Repr

/-- adapters/base.py BaseAdapter: a name plus a `search` that may raise
(modelled as `Except String`). -/
structure BaseAdapter where
  name : String
  search : BookQuery → Except String (List BookResult)

/-- SearchReport dataclass from search.py. The Python dicts
`source_counts` and `errors` are modelled as insertion-ordered association
lists. `elapsed` is wall-clock time, fixed to 0 in the embedding. -/
structure SearchReport where
  results : List BookResult := []
  source_counts : List (String × Nat) := []
  errors : List (String × String) := []
  elapsed : ℚ := 0
  deriving DecidableEq, Repr

/-- First component of the sort key of search.py line 57: `r.price == 0`. -/
def priceZero (r : BookResult) : Bool :=
  decide (r.price = 0)

/-- The total preorder corresponding to Python's ascending stable sort by the
key `(r.price == 0, r.total_price)` (search.py line 57), with
`False < True` on the first component. -/
def resultLE (a b : BookResult) : Bool :=
  if priceZero a = priceZero b then decide (a.total_price ≤ b.total_price)
  else priceZero b

/-- The per-adapter outcomes of one `search_all_with_report` call:
each adapter's name paired with what its `search` returned or raised. -/
def outcomes (q : BookQuery) (adapters : List BaseAdapter) :
    List (String × Except String (List BookResult)) :=
  adapters.map fun a => (a.name, a.search q)

/-- The successful outcomes, in adapter order (search.py `_safe_search`:
a raising adapter is caught and contributes nothing here). -/
def successList (os : List (String × Except String (List BookResult))) :
    List (String × List BookResult) :=
  os.filterMap fun p =>
    match p.2 with
    | .ok rs => some (p.1, rs)
    | .error _ => none

/-- The failing outcomes with their error description, in adapter order
(search.py `_safe_search`: `report.errors[adapter.name] = str(e)`). -/
def errorList (os : List (String × Except String (List BookResult))) :
    List (String × String) :=
  os.filterMap fun p =>
    match p.2 with
    | .error e => some (p.1, e)
    | .ok _ => none

/-- search.py line 56: `[r for batch in nested for r in batch]`, the
concatenation of all successful adapters' result lists. -/
def concatSuccess (q : BookQuery) (adapters : List BaseAdapter) : List BookResult :=
  ((successList (outcomes q adapters)).map Prod.snd).flatten

/-- search.py `search_all_with_report`: every adapter is queried, failures are
recorded per source, successes are counted per source, the successful results
are concatenated and stably sorted by `(r.price == 0, r.total_price)`. -/
def search_all_with_report (q : BookQuery) (adapters : List BaseAdapter) :
    SearchReport :=
  { results := (concatSuccess q adapters).mergeSort resultLE
    source_counts := (successList (outcomes q adapters)).map fun p => (p.1, p.2.length)
    errors := errorList (outcomes q adapters)
    elapsed := 0 }

/-- search.py `search_all`: the results of `search_all_with_report`. -/
def search_all (q : BookQuery) (adapters : List BaseAdapter) : List BookResult :=
  (search_all_with_report q adapters).results

/-- Spec-side first sort-key component, from the spec's words
"(is_zero_or_negative_price, effective_price)": `r.price ≤ 0`
(the source's key, `priceZero`, tests `r.price == 0` instead). -/
def specFreeFlag (r : BookResult) : Bool :=
  decide (r.price ≤ 0)

/-- Spec-side ordering: ascending lexicographic in the key
`(is_zero_or_negative_price, effective_price)` claimed by the spec; to be
compared with the source-derived `resultLE`. -/
def specLE (a b : BookResult) : Bool :=
  if specFreeFlag a = specFreeFlag b then decide (a.total_price ≤ b.total_price)
  else specFreeFlag b


/-- Wishlist entry as used by db/database.py `check_wishlist_deals`:
the relevant columns of a wishlist row. A NULL / empty `isbn` is modelled as
`""` (both are falsy in the Python truth test on line 207), a NULL
`max_price` as `none`. -/
structure WishlistEntry where
  title : String
  author : String := ""
  isbn : String := ""
  max_price : Option ℚ := none
  deriving DecidableEq, Repr

/-- Python's substring test `needle in hay` on character lists: `needle` is a
contiguous infix. Structural recursion, so concrete instances evaluate. -/
def listIsInfixOf {α : Type} [DecidableEq α] (needle : List α) : List α → Bool
  | [] => needle.isEmpty
  | a :: hay => needle.isPrefixOf (a :: hay) || listIsInfixOf needle hay

/-- database.py line 208: `entry["title"].lower() in result.title.lower()` --
case-insensitive substring test: infix on the per-character lowered
character lists (`str.lower` lowers each character). -/
def titleMatch (e : WishlistEntry) (r : BookResult) : Bool :=
  listIsInfixOf (e.title.toList.map Char.toLower) (r.title.toList.map Char.toLower)

/-- database.py line 207: `entry["isbn"] and entry["isbn"] == result.isbn` --
the entry's identifier is truthy (non-empty) and equal to the result's. -/
def isbnMatch (e : WishlistEntry) (r : BookResult) : Bool :=
  (!decide (e.isbn = "")) && decide (e.isbn = r.isbn)

/-- Inner loop of database.py `check_wishlist_deals` (lines 202-211) for one
wishlist entry with non-null ceiling `c`: results with `price <= 0` are
skipped, a result is appended when `(isbn_match or title_match) and
result.total_price <= max_price`. -/
def dealsForEntry (e : WishlistEntry) (c : ℚ) :
    List BookResult → List (WishlistEntry × BookResult)
  | [] => []
  | r :: rest =>
    if r.price ≤ 0 then dealsForEntry e c rest
    else if (isbnMatch e r || titleMatch e r) && decide (r.total_price ≤ c) then
      (e, r) :: dealsForEntry e c rest
    else dealsForEntry e c rest

/-- database.py `check_wishlist_deals` (lines 189-213), taking the wishlist
rows as an explicit argument (the Python method reads them from the database
with `get_wishlist`): entries with NULL `max_price` are skipped, every other
entry is matched against every result in order. -/
def check_wishlist_deals :
    List WishlistEntry → List BookResult → List (WishlistEntry × BookResult)
  | [], _ => []
  | e :: rest, results =>
    match e.max_price with
    | none => check_wishlist_deals rest results
    | some c => dealsForEntry e c results ++ check_wishlist_deals rest results

/-! Result cache and rate limiter of web.py. Python dicts are modelled as
insertion-ordered association lists: overwriting keeps the position,
a new key is appended, `min` returns the first entry attaining the minimum,
`pop` removes the entry of the key. -/

/-- Cache key of web.py line 50: `(query, max_results, isbn_only)`. -/
abbrev CacheKey := String × Int × Bool

/-- The `_CACHE` dict of web.py line 28, in insertion order. -/
abbrev Cache := List (CacheKey × (ℚ × SearchReport))

/-- web.py line 26. -/
def _CACHE_TTL_SECONDS : ℚ := 300

/-- web.py line 27. -/
def _CACHE_MAX_ITEMS : Nat := 50

/-- web.py line 31. -/
def _RATE_LIMIT_SECONDS : ℚ := 5

/-- Python `dict.get` on an insertion-ordered association list. -/
def lookupD {K V : Type} [DecidableEq K] : List (K × V) → K → Option V
  | [], _ => none
  | p :: rest, k => if p.1 = k then some p.2 else lookupD rest k

/-- Python `d[k] = v`: overwrite in place if the key is present (keeping its
position in insertion order), otherwise append. -/
def dictInsert {K V : Type} [DecidableEq K] (m : List (K × V)) (k : K) (v : V) :
    List (K × V) :=
  if (lookupD m k).isSome then m.map fun p => if p.1 = k then (k, v) else p
  else m ++ [(k, v)]

/-- Python `d.pop(k, None)`: remove the entry of key `k` (keys are unique in a
dict, so removing all entries of that key is the same operation). -/
def eraseKey {K V : Type} [DecidableEq K] (m : List (K × V)) (k : K) :
    List (K × V) :=
  m.filter fun p => decide (p.1 ≠ k)

/-- One step of Python `min(..., key=...)`: keep the earlier entry unless the
later one is strictly smaller. -/
def minStep {K B : Type} (best p : K × (ℚ × B)) : K × (ℚ × B) :=
  if p.2.1 < best.2.1 then p else best

/-- web.py line 65: `min(_CACHE, key=lambda k: _CACHE[k][0])` -- the first
entry (in insertion order) with the oldest timestamp. -/
def oldestEntry {K B : Type} : List (K × (ℚ × B)) → Option (K × (ℚ × B))
  | [] => none
  | x :: xs => some (xs.foldl minStep x)

/-- web.py lines 62-66 with the capacity as a parameter: store the freshly
computed report under `key` with timestamp `now`, then, if the size exceeds
`maxItems`, evict exactly the one entry with the oldest timestamp. -/
def cacheStoreMax (maxItems : Nat) (cache : Cache) (key : CacheKey) (now : ℚ)
    (report : SearchReport) : Cache :=
  let c1 := dictInsert cache key (now, report)
  if maxItems < c1.length then
    match oldestEntry c1 with
    | some m => eraseKey c1 m.1
    | none => c1
  else c1

/-- web.py lines 62-66 at the source's capacity `_CACHE_MAX_ITEMS = 50`. -/
def cacheStore : Cache → CacheKey → ℚ → SearchReport → Cache :=
  cacheStoreMax _CACHE_MAX_ITEMS

/-- The miss path of web.py `_cached_search` (lines 56-68): run the compute
function (building the query and calling the aggregator); if it raises, the
exception propagates and the cache is untouched; otherwise store and,
if over capacity, evict once. -/
def cacheMissCompute (cache : Cache) (key : CacheKey) (now : ℚ)
    (compute : Unit → Except String SearchReport) :
    Except String SearchReport × Cache :=
  match compute () with
  | .error e => (.error e, cache)
  | .ok report => (.ok report, cacheStore cache key now report)

/-- web.py `_cached_search` (lines 49-68) in state-passing form over the
`_CACHE` dict, with the query-dependent computation abstracted as `compute`
(in the source it is `search_all_with_report` on the built `BookQuery`):
a stored entry younger than the TTL is returned as is; otherwise the report
is recomputed and stored. Returns the result (or the propagated exception)
together with the new cache state. -/
def _cached_search (cache : Cache) (key : CacheKey) (now : ℚ)
    (compute : Unit → Except String SearchReport) :
    Except String SearchReport × Cache :=
  match lookupD cache key with
  | some c =>
    if now - c.1 < _CACHE_TTL_SECONDS then (.ok c.2, cache)
    else cacheMissCompute cache key now compute
  | none => cacheMissCompute cache key now compute

/-- Folding web.py's store step (lines 62-66) over a list of
(key, timestamp, report) insertions, for the eviction scenario. -/
def foldStoreMax (maxItems : Nat) (cache : Cache) (ps : Cache) : Cache :=
  ps.foldl (fun c p => cacheStoreMax maxItems c p.1 p.2.1 p.2.2) cache

/-- Reading the `_LAST_SEARCH` defaultdict(float) of web.py line 32:
a missing identity reads as `0.0`. -/
def lastSearchGet (m : List (String × ℚ)) (ip : String) : ℚ :=
  (lookupD m ip).getD 0

/-- The per-IP rate limiting of web.py `search_get` (lines 513-521), as a
decision function over the `_LAST_SEARCH` state: reading the defaultdict
materialises the entry with its current (or default 0) value; the request is
denied if less than `_RATE_LIMIT_SECONDS` passed since the stored timestamp,
and only an allowed request overwrites the timestamp. -/
def rateLimitCheck (m : List (String × ℚ)) (ip : String) (now : ℚ) :
    Bool × List (String × ℚ) :=
  let last := lastSearchGet m ip
  let m1 := dictInsert m ip last
  if now - last < _RATE_LIMIT_SECONDS then (false, m1)
  else (true, dictInsert m1 ip now)

/-! Concrete instances used in the closed evaluations below. The first group
is the fixture of tests/test_search.py. -/

/-- The query of tests/test_search.py. -/
def qDune : BookQuery := { query := "dune", max_results := 5 }

/-- Adapter A's quote in tests/test_search.py: price 5.00, shipping 1.00. -/
def resA : BookResult :=
  { title := "A", author := "X", price := 5, currency := "USD",
    condition := .used, source := "A", url := "https://a", shipping := some 1 }

/-- Adapter B's quote in tests/test_search.py: price 3.00, shipping 0.00. -/
def resB : BookResult :=
  { title := "B", author := "Y", price := 3, currency := "USD",
    condition := .used, source := "B", url := "https://b", shipping := some 0 }

/-- Adapter C's quote in tests/test_search.py: price 0.00, unknown condition. -/
def resC : BookResult :=
  { title := "C", author := "Z", price := 0, currency := "USD",
    condition := .unknown, source := "C", url := "https://c", shipping := none }

/-- Test adapter A. -/
def adA : BaseAdapter := { name := "A", search := fun _ => .ok [resA] }

/-- Test adapter B. -/
def adB : BaseAdapter := { name := "B", search := fun _ => .ok [resB] }

/-- Test adapter C. -/
def adC : BaseAdapter := { name := "C", search := fun _ => .ok [resC] }

/-- An always-raising adapter (any `Exception` in `_safe_search`). -/
def adFail : BaseAdapter := { name := "F", search := fun _ => .error "boom" }

/-- A quote with a negative base price. -/
def resNeg : BookResult :=
  { title := "N", author := "X", price := -1, currency := "USD",
    condition := .used, source := "N", url := "https://n", shipping := none }

/-- A positively priced quote. -/
def resPos : BookResult :=
  { title := "P", author := "X", price := 2, currency := "USD",
    condition := .used, source := "N", url := "https://n", shipping := none }

/-- An adapter returning a negative-priced and a positive-priced quote. -/
def adNeg : BaseAdapter := { name := "N", search := fun _ => .ok [resNeg, resPos] }

/-- Two distinct quotes with identical sort key (price 2, no shipping). -/
def resEq1 : BookResult :=
  { title := "E1", author := "X", price := 2, currency := "USD",
    condition := .used, source := "E", url := "https://e", shipping := none }

/-- Second quote with the same sort key as `resEq1`. -/
def resEq2 : BookResult :=
  { title := "E2", author := "X", price := 2, currency := "USD",
    condition := .used, source := "E", url := "https://e", shipping := none }

/-- An adapter returning the two equal-key quotes in a fixed order. -/
def adEq : BaseAdapter := { name := "E", search := fun _ => .ok [resEq1, resEq2] }

/-- Empty default report, for cache entries. -/
def rep0 : SearchReport := {}

/-- A second report, distinguishable from `rep0` by its elapsed field. -/
def rep1 : SearchReport := { elapsed := 1 }

/-- Wishlist entry of the spec's deal-matcher property: ceiling 20.00,
title "Dune". -/
def entryDune : WishlistEntry := { title := "Dune", max_price := some 20 }

/-- Deluxe-edition quote, effective price 15.00. -/
def quoteDeluxe : BookResult :=
  { title := "Dune (Deluxe Edition)", author := "FH", price := 15,
    currency := "USD", condition := .new, source := "S", url := "https://s",
    shipping := some 0 }

/-- Expensive quote, effective price 25.00. -/
def quoteExpensive : BookResult :=
  { title := "Dune (Deluxe Edition)", author := "FH", price := 25,
    currency := "USD", condition := .new, source := "S", url := "https://s",
    shipping := some 0 }

/-- A free-but-shipped quote: base price 0, shipping 5, effective price 5. -/
def quoteFreeShip : BookResult :=
  { title := "Dune", author := "FH", price := 0, currency := "USD",
    condition := .used, source := "S", url := "https://s", shipping := some 5 }

/-- First insertion of the eviction scenario: key index 0 at timestamp 0. -/
def pEvict0 : CacheKey × (ℚ × SearchReport) := (("q", 0, false), (0, rep0))

/-- The remaining 50 insertions of the eviction scenario: key indices 1..50
at strictly increasing timestamps 1..50. -/
def psEvictRest : Cache :=
  (List.range 50).map fun (i : ℕ) =>
    (("q", ((i : Int) + 1), false), (((i : ℚ) + 1), rep0))

/-! Helper lemmas. -/

/-- Closed form of `mergeSort` on a two-element list. -/
theorem mergeSort_pair {α : Type} (le : α → α → Bool) (a b : α) :
    [a, b].mergeSort le = if le a b then [a, b] else [b, a] := by
  rw [List.mergeSort]
  simp [List.splitInTwo, List.splitAt, List.splitAt.go, List.merge]

/-- A three-element `mergeSort` reduces to a merge of the sorted
first half with the singleton second half. -/
theorem mergeSort_triple {α : Type} (le : α → α → Bool) (a b c : α) :
    [a, b, c].mergeSort le = List.merge ([a, b].mergeSort le) [c] le := by
  rw [List.mergeSort]
  simp [List.splitInTwo, List.splitAt, List.splitAt.go]

/-- The sort order of search.py line 57 is total. -/
theorem resultLE_total (a b : BookResult) : resultLE a b || resultLE b a := by
  unfold resultLE
  cases ha : priceZero a <;> cases hb : priceZero b <;>
    simp [ha, hb] <;> exact le_total _ _

/-- The sort order of search.py line 57 is transitive. -/
theorem resultLE_trans (a b c : BookResult) (hab : resultLE a b)
    (hbc : resultLE b c) : resultLE a c := by
  unfold resultLE at *
  cases ha : priceZero a <;> cases hb : priceZero b <;> cases hc : priceZero c <;>
    simp [ha, hb, hc] at * <;> try exact le_trans hab hbc

/-- On quotes with non-negative base price the source's key component
`price == 0` and the spec's component `price <= 0` agree. -/
theorem priceZero_eq_specFreeFlag {r : BookResult} (h : 0 ≤ r.price) :
    priceZero r = specFreeFlag r := by
  unfold priceZero specFreeFlag
  by_cases hz : r.price = 0
  · simp [hz]
  · have hnle : ¬r.price ≤ 0 := fun hle => hz (le_antisymm hle h)
    simp [hz, hnle]

/-- On quotes with non-negative base price the source's sort order and the
spec's claimed sort order agree. -/
theorem resultLE_eq_specLE {a b : BookResult} (ha : 0 ≤ a.price)
    (hb : 0 ≤ b.price) : resultLE a b = specLE a b := by
  unfold resultLE specLE
  rw [priceZero_eq_specFreeFlag ha, priceZero_eq_specFreeFlag hb]

/-- Unfolding `concatSuccess` over the head adapter. -/
theorem concatSuccess_cons (q : BookQuery) (a : BaseAdapter)
    (rest : List BaseAdapter) :
    concatSuccess q (a :: rest) =
      (match a.search q with
       | .ok l => l ++ concatSuccess q rest
       | .error _ => concatSuccess q rest) := by
  unfold concatSuccess successList outcomes
  rw [List.map_cons, List.filterMap_cons]
  cases a.search q <;> simp

/-- A result is in the concatenation iff some adapter successfully
returned it. -/
theorem mem_concatSuccess {q : BookQuery} :
    ∀ {adapters : List BaseAdapter} {r : BookResult},
      r ∈ concatSuccess q adapters ↔
        ∃ a ∈ adapters, ∃ l, a.search q = Except.ok l ∧ r ∈ l := by
  intro adapters
  induction adapters with
  | nil => intro r; simp [concatSuccess, successList, outcomes]
  | cons a rest ih =>
    intro r
    rw [concatSuccess_cons]
    cases h : a.search q with
    | ok l => simp [h, ih]
    | error e => simp [h, ih]

/-- A tagged filterMap over the outcomes, unfolded at the head adapter. -/
theorem selMap_cons {β : Type}
    (sel : Except String (List BookResult) → Option β) (q : BookQuery)
    (a : BaseAdapter) (rest : List BaseAdapter) :
    ((outcomes q (a :: rest)).filterMap fun p => (sel p.2).map fun b => (p.1, b)) =
      (match sel (a.search q) with
       | some v => [(a.name, v)]
       | none => []) ++
        ((outcomes q rest).filterMap fun p => (sel p.2).map fun b => (p.1, b)) := by
  show ((a.name, a.search q) :: outcomes q rest).filterMap _ = _
  rw [List.filterMap_cons]
  cases sel (a.search q) <;> simp

/-- The error map in tagged-filterMap form. -/
theorem errorList_eq :
    ∀ os : List (String × Except String (List BookResult)),
      errorList os =
        os.filterMap fun p =>
          (match p.2 with
           | .error e => some e
           | .ok _ => none).map fun e => (p.1, e)
  | [] => rfl
  | p :: os => by
    have ih := errorList_eq os
    unfold errorList at ih ⊢
    cases h : p.2 <;> simp [List.filterMap_cons, h, ih]

/-- The per-source count map in tagged-filterMap form. -/
theorem source_counts_eq :
    ∀ os : List (String × Except String (List BookResult)),
      (successList os).map (fun p => (p.1, p.2.length)) =
        os.filterMap fun p =>
          (match p.2 with
           | .ok l => some l.length
           | .error _ => none).map fun n => (p.1, n)
  | [] => rfl
  | p :: os => by
    have ih := source_counts_eq os
    unfold successList at ih ⊢
    cases h : p.2 <;> simp [List.filterMap_cons, h, ih]

/-- Looking up a name that belongs to no adapter in a tagged filterMap over
the outcomes yields nothing. -/
theorem lookupD_sel_none {β : Type}
    (sel : Except String (List BookResult) → Option β) (q : BookQuery) :
    ∀ {adapters : List BaseAdapter} {n : String},
      n ∉ adapters.map BaseAdapter.name →
      lookupD
        ((outcomes q adapters).filterMap fun p => (sel p.2).map fun b => (p.1, b))
        n = none := by
  intro adapters
  induction adapters with
  | nil => intro n _; rfl
  | cons a rest ih =>
    intro n hn
    simp only [List.map_cons, List.mem_cons, not_or] at hn
    have hne : ¬(a.name = n) := fun heq => hn.1 heq.symm
    rw [selMap_cons]
    cases h : sel (a.search q) with
    | none => exact ih hn.2
    | some v =>
      show lookupD ((a.name, v) ::
        ((outcomes q rest).filterMap fun p => (sel p.2).map fun b => (p.1, b))) n = none
      rw [lookupD, if_neg hne]
      exact ih hn.2

/-- With pairwise-distinct adapter names, looking up an adapter's name in a
tagged filterMap over the outcomes yields exactly that adapter's selected
value. -/
theorem lookupD_sel_outcomes {β : Type}
    (sel : Except String (List BookResult) → Option β) (q : BookQuery) :
    ∀ {adapters : List BaseAdapter},
      (adapters.map BaseAdapter.name).Nodup →
      ∀ {a : BaseAdapter}, a ∈ adapters →
      lookupD
        ((outcomes q adapters).filterMap fun p => (sel p.2).map fun b => (p.1, b))
        a.name = sel (a.search q) := by
  intro adapters
  induction adapters with
  | nil => intro _ a ha; cases ha
  | cons b rest ih =>
    intro hnd a ha
    simp only [List.map_cons, List.nodup_cons] at hnd
    rw [selMap_cons]
    rcases List.mem_cons.mp ha with rfl | hmem
    · cases h : sel (a.search q) with
      | none => exact lookupD_sel_none sel q hnd.1
      | some v =>
        show lookupD ((a.name, v) ::
          ((outcomes q rest).filterMap fun p => (sel p.2).map fun b => (p.1, b)))
            a.name = some v
        simp [lookupD]
    · have hne : b.name ≠ a.name := by
        intro heq
        exact hnd.1 (heq ▸ List.mem_map_of_mem BaseAdapter.name hmem)
      cases h : sel (b.search q) with
      | none => exact ih hnd.2 hmem
      | some v =>
        show lookupD ((b.name, v) ::
          ((outcomes q rest).filterMap fun p => (sel p.2).map fun b => (p.1, b)))
            a.name = sel (a.search q)
        rw [lookupD, if_neg hne]
        exact ih hnd.2 hmem

/-- The keys of a tagged filterMap over the outcomes are the names of the
adapters whose outcome is selected, in adapter order. -/
theorem keys_sel {β : Type}
    (sel : Except String (List BookResult) → Option β) (q : BookQuery) :
    ∀ adapters : List BaseAdapter,
      (((outcomes q adapters).filterMap fun p =>
          (sel p.2).map fun b => (p.1, b)).map Prod.fst) =
        (adapters.filter fun a => (sel (a.search q)).isSome).map BaseAdapter.name
  | [] => rfl
  | b :: rest => by
    rw [selMap_cons, List.filter_cons]
    cases h : sel (b.search q) with
    | none => simpa [h] using keys_sel sel q rest
    | some v => simpa [h] using keys_sel sel q rest

/-- C9: with adapter A returning one quote at price 5.00 plus shipping 1.00,
B one quote at price 3.00 plus shipping 0.00, and C one quote at price 0.00
with unknown condition, the aggregator returns the quotes in the order
[B (effective 3.00), A (effective 6.00), C (0.00)]. -/
theorem bp_c9 :
    (search_all_with_report qDune [adA, adB, adC]).results = [resB, resA, resC] := by
  show ((concatSuccess qDune [adA, adB, adC]).mergeSort resultLE) = _
  have h : concatSuccess qDune [adA, adB, adC] = [resA, resB, resC] := by rfl
  rw [h, mergeSort_triple, mergeSort_pair]
  norm_num [resultLE, priceZero, resA, resB, resC, BookResult.total_price, List.merge]

/-- C1 counterexample: the source sorts by `(price == 0, total_price)`, not by
`(price <= 0, effective_price)`. An adapter returning a quote with negative
base price -1 and a quote with positive price 2 yields the negative-priced
quote first, so a positively priced quote does not precede every
zero-or-negative-priced one, and the results are not ordered by the spec's
claimed key. -/
theorem bp_c1_cex :
    (search_all_with_report qDune [adNeg]).results = [resNeg, resPos] ∧
    resNeg.price < 0 ∧ 0 < resPos.price ∧
    ¬ ((search_all_with_report qDune [adNeg]).results.Pairwise
        fun a b => specLE a b = true) := by
  have h : (search_all_with_report qDune [adNeg]).results = [resNeg, resPos] := by
    show ((concatSuccess qDune [adNeg]).mergeSort resultLE) = _
    rw [show concatSuccess qDune [adNeg] = [resNeg, resPos] from rfl, mergeSort_pair]
    norm_num [resultLE, priceZero, resNeg, resPos, BookResult.total_price]
  refine ⟨h, by norm_num [resNeg], by norm_num [resPos], ?_⟩
  rw [h]
  intro hpw
  have hrel := List.rel_of_pairwise_cons hpw (List.mem_cons_self resPos [])
  simp [specLE, specFreeFlag, resNeg, resPos, BookResult.total_price] at hrel
  exact absurd hrel.1 (by norm_num)

/-- C1 amended: restricted to runs in which every returned quote has a
non-negative base price (the spec's Quote data-model invariant), the results
list of `search_all_with_report` is a permutation of the concatenated
successful quote lists (no quote dropped), is sorted ascending by the key
`(is_zero_or_negative_price, effective_price)` (so positively priced quotes
come first, cheapest-first, zero-priced ones last), and quotes with equal
sort key keep their concatenation order (stability). -/
theorem bp_c1_amended (q : BookQuery) (adapters : List BaseAdapter)
    (hpos : ∀ a ∈ adapters, ∀ l, a.search q = Except.ok l → ∀ r ∈ l, 0 ≤ r.price) :
    (search_all_with_report q adapters).results.Perm (concatSuccess q adapters) ∧
    (search_all_with_report q adapters).results.Pairwise
      (fun a b => specLE a b = true) ∧
    ∀ a b, specFreeFlag a = specFreeFlag b → a.total_price = b.total_price →
      [a, b].Sublist (concatSuccess q adapters) →
      [a, b].Sublist (search_all_with_report q adapters).results := by
  have hmem : ∀ r ∈ concatSuccess q adapters, 0 ≤ r.price := by
    intro r hr
    rcases mem_concatSuccess.mp hr with ⟨a, hmema, l, hok, hrl⟩
    exact hpos a hmema l hok r hrl
  refine ⟨List.mergeSort_perm _ _, ?_, ?_⟩
  · have hp := List.sorted_mergeSort resultLE_trans resultLE_total
      (concatSuccess q adapters)
    refine List.Pairwise.imp_of_mem (fun {a} {b} hma hmb hle => ?_) hp
    have ha0 : 0 ≤ a.price := hmem a (List.mem_mergeSort.mp hma)
    have hb0 : 0 ≤ b.price := hmem b (List.mem_mergeSort.mp hmb)
    rw [← resultLE_eq_specLE ha0 hb0]
    exact hle
  · intro a b hflag htot hsub
    have ha0 : 0 ≤ a.price := hmem a (hsub.subset (by simp))
    have hb0 : 0 ≤ b.price := hmem b (hsub.subset (by simp))
    have hle : resultLE a b = true := by
      rw [resultLE_eq_specLE ha0 hb0]
      unfold specLE
      rw [hflag, if_pos rfl]
      simp [htot]
    exact List.pair_sublist_mergeSort resultLE_trans resultLE_total hle hsub

/-- C1 amended, witnessed at a concrete run: one adapter returning two
distinct quotes with identical sort key; the run keeps both quotes and keeps
their order. -/
theorem bp_c1_amended_witness :
    (search_all_with_report qDune [adEq]).results.Perm [resEq1, resEq2] ∧
    [resEq1, resEq2].Sublist (search_all_with_report qDune [adEq]).results := by
  have hpos : ∀ a ∈ [adEq], ∀ l, a.search qDune = Except.ok l →
      ∀ r ∈ l, 0 ≤ r.price := by
    intro a ha l hok r hr
    have haeq : a = adEq := by simpa using ha
    subst haeq
    have hok' : Except.ok [resEq1, resEq2] = Except.ok l := hok
    injection hok' with hl
    subst hl
    rcases hr with _ | ⟨_, hr2⟩
    · norm_num [resEq1]
    · rcases hr2 with _ | ⟨_, h3⟩
      · norm_num [resEq2]
      · cases h3
  have h := bp_c1_amended qDune [adEq] hpos
  constructor
  · have hc : concatSuccess qDune [adEq] = [resEq1, resEq2] := rfl
    exact hc ▸ h.1
  · exact h.2.2 resEq1 resEq2 rfl rfl (List.Sublist.refl _)

/-- C2: if one adapter raises while others succeed, `search_all_with_report`
still returns (total function), the raising adapter is recorded in the error
map with its description and has no per-source count, and every successful
adapter keeps its count, stays out of the error map, and has all its quotes
in the results. -/
theorem bp_c2 (q : BookQuery) (adapters : List BaseAdapter)
    (hnd : (adapters.map BaseAdapter.name).Nodup)
    (a : BaseAdapter) (ha : a ∈ adapters) (e : String)
    (he : a.search q = Except.error e) :
    lookupD (search_all_with_report q adapters).errors a.name = some e ∧
    lookupD (search_all_with_report q adapters).source_counts a.name = none ∧
    ∀ b ∈ adapters, ∀ l, b.search q = Except.ok l →
      lookupD (search_all_with_report q adapters).source_counts b.name =
        some l.length ∧
      lookupD (search_all_with_report q adapters).errors b.name = none ∧
      ∀ r ∈ l, r ∈ (search_all_with_report q adapters).results := by
  refine ⟨?_, ?_, ?_⟩
  · show lookupD (errorList (outcomes q adapters)) a.name = some e
    rw [errorList_eq]
    have hsel := lookupD_sel_outcomes
      (fun res : Except String (List BookResult) =>
        match res with | .error e => some e | .ok _ => none) q hnd ha
    exact hsel.trans (by rw [he])
  · show lookupD ((successList (outcomes q adapters)).map fun p => (p.1, p.2.length))
      a.name = none
    rw [source_counts_eq]
    have hsel := lookupD_sel_outcomes
      (fun res : Except String (List BookResult) =>
        match res with | .ok l => some l.length | .error _ => none) q hnd ha
    exact hsel.trans (by rw [he])
  · intro b hb l hok
    refine ⟨?_, ?_, ?_⟩
    · show lookupD ((successList (outcomes q adapters)).map fun p => (p.1, p.2.length))
        b.name = some l.length
      rw [source_counts_eq]
      have hsel := lookupD_sel_outcomes
        (fun res : Except String (List BookResult) =>
          match res with | .ok l => some l.length | .error _ => none) q hnd hb
      exact hsel.trans (by rw [hok])
    · show lookupD (errorList (outcomes q adapters)) b.name = none
      rw [errorList_eq]
      have hsel := lookupD_sel_outcomes
        (fun res : Except String (List BookResult) =>
          match res with | .error e => some e | .ok _ => none) q hnd hb
      exact hsel.trans (by rw [hok])
    · intro r hr
      show r ∈ (concatSuccess q adapters).mergeSort resultLE
      rw [List.mem_mergeSort]
      exact mem_concatSuccess.mpr ⟨b, hb, l, hok, hr⟩

/-- C2 witnessed at a concrete run with one succeeding and one raising
adapter. -/
theorem bp_c2_witness :
    lookupD (search_all_with_report qDune [adA, adFail]).errors "F" = some "boom" ∧
    lookupD (search_all_with_report qDune [adA, adFail]).source_counts "A" =
      some 1 ∧
    resA ∈ (search_all_with_report qDune [adA, adFail]).results := by
  have h := bp_c2 qDune [adA, adFail] (by decide) adFail
    (List.Mem.tail adA (List.Mem.head [])) "boom" rfl
  have h2 := h.2.2 adA (List.Mem.head _) [resA] rfl
  exact ⟨h.1, h2.1, h2.2.2 resA (List.Mem.head _)⟩

/-- C10: with pairwise-distinct adapter names, the key sets of
`source_counts` and `errors` are disjoint, every adapter's name is in exactly
one of the two maps, each recorded count is the number of quotes that adapter
returned, and the counts sum to the length of the results list. -/
theorem bp_c10 (q : BookQuery) (adapters : List BaseAdapter)
    (hnd : (adapters.map BaseAdapter.name).Nodup) :
    (∀ n, n ∈ (search_all_with_report q adapters).source_counts.map Prod.fst →
       n ∉ (search_all_with_report q adapters).errors.map Prod.fst) ∧
    (∀ a ∈ adapters,
       (a.name ∈ (search_all_with_report q adapters).source_counts.map Prod.fst ∧
        a.name ∉ (search_all_with_report q adapters).errors.map Prod.fst) ∨
       (a.name ∉ (search_all_with_report q adapters).source_counts.map Prod.fst ∧
        a.name ∈ (search_all_with_report q adapters).errors.map Prod.fst)) ∧
    (∀ a ∈ adapters, ∀ l, a.search q = Except.ok l →
       lookupD (search_all_with_report q adapters).source_counts a.name =
         some l.length) ∧
    ((search_all_with_report q adapters).source_counts.map Prod.snd).sum =
      (search_all_with_report q adapters).results.length := by
  have hsc : (search_all_with_report q adapters).source_counts.map Prod.fst =
      (adapters.filter fun a =>
        ((match a.search q with
          | .ok l => some l.length
          | .error _ => none : Option Nat)).isSome).map BaseAdapter.name := by
    show ((successList (outcomes q adapters)).map fun p => (p.1, p.2.length)).map
      Prod.fst = _
    rw [source_counts_eq]
    exact keys_sel (fun res : Except String (List BookResult) =>
      match res with | .ok l => some l.length | .error _ => none) q adapters
  have her : (search_all_with_report q adapters).errors.map Prod.fst =
      (adapters.filter fun a =>
        ((match a.search q with
          | .error e => some e
          | .ok _ => none : Option String)).isSome).map BaseAdapter.name := by
    show (errorList (outcomes q adapters)).map Prod.fst = _
    rw [errorList_eq]
    exact keys_sel (fun res : Except String (List BookResult) =>
      match res with | .error e => some e | .ok _ => none) q adapters
  have hkey : ∀ n,
      n ∈ (search_all_with_report q adapters).source_counts.map Prod.fst →
      n ∈ (search_all_with_report q adapters).errors.map Prod.fst → False := by
    intro n hin hie
    rw [hsc] at hin
    rw [her] at hie
    rcases List.mem_map.mp hin with ⟨a, hfa, hna⟩
    rcases List.mem_map.mp hie with ⟨b, hfb, hnb⟩
    have hamem := (List.mem_filter.mp hfa).1
    have hbmem := (List.mem_filter.mp hfb).1
    have hflaga := (List.mem_filter.mp hfa).2
    have hflagb := (List.mem_filter.mp hfb).2
    have hab : a = b :=
      List.inj_on_of_nodup_map hnd hamem hbmem (hna.trans hnb.symm)
    subst hab
    cases hq : a.search q
    · rw [hq] at hflaga
      simp at hflaga
    · rw [hq] at hflagb
      simp at hflagb
  refine ⟨fun n hin hie => hkey n hin hie, ?_, ?_, ?_⟩
  · intro a ha
    cases hq : a.search q with
    | ok l =>
      left
      have hin : a.name ∈
          (search_all_with_report q adapters).source_counts.map Prod.fst := by
        rw [hsc]
        exact List.mem_map_of_mem _ (List.mem_filter.mpr ⟨ha, by rw [hq]; rfl⟩)
      exact ⟨hin, fun hie => hkey a.name hin hie⟩
    | error e =>
      right
      have hie : a.name ∈
          (search_all_with_report q adapters).errors.map Prod.fst := by
        rw [her]
        exact List.mem_map_of_mem _ (List.mem_filter.mpr ⟨ha, by rw [hq]; rfl⟩)
      exact ⟨fun hin => hkey a.name hin hie, hie⟩
  · intro a ha l hok
    show lookupD ((successList (outcomes q adapters)).map fun p => (p.1, p.2.length))
      a.name = some l.length
    rw [source_counts_eq]
    have hsel := lookupD_sel_outcomes
      (fun res : Except String (List BookResult) =>
        match res with | .ok l => some l.length | .error _ => none) q hnd ha
    exact hsel.trans (by rw [hok])
  · show (((successList (outcomes q adapters)).map fun p => (p.1, p.2.length)).map
      Prod.snd).sum = ((concatSuccess q adapters).mergeSort resultLE).length
    rw [List.length_mergeSort]
    unfold concatSuccess
    rw [List.length_flatten]
    simp [List.map_map, Function.comp_def]

/-- C10 witnessed at a concrete run with one succeeding and one raising
adapter. -/
theorem bp_c10_witness :
    ((("A" ∈ (search_all_with_report qDune [adA, adFail]).source_counts.map
        Prod.fst) ∧
      ("A" ∉ (search_all_with_report qDune [adA, adFail]).errors.map Prod.fst)) ∨
     (("A" ∉ (search_all_with_report qDune [adA, adFail]).source_counts.map
        Prod.fst) ∧
      ("A" ∈ (search_all_with_report qDune [adA, adFail]).errors.map Prod.fst))) ∧
    ((search_all_with_report qDune [adA, adFail]).source_counts.map Prod.snd).sum =
      (search_all_with_report qDune [adA, adFail]).results.length := by
  have h := bp_c10 qDune [adA, adFail] (by decide)
  exact ⟨h.2.1 adA (List.Mem.head _), h.2.2.2⟩

/-- A key is absent from an association list iff its lookup fails. -/
theorem lookupD_eq_none {K V : Type} [DecidableEq K] :
    ∀ (m : List (K × V)) (k : K), lookupD m k = none ↔ k ∉ m.map Prod.fst
  | [], k => by simp [lookupD]
  | p :: rest, k => by
    by_cases h : p.1 = k
    · simp [lookupD, h]
    · simp [lookupD, h, lookupD_eq_none rest k, Ne.symm h]

/-- Lookup distributes over append, trying the left part first. -/
theorem lookupD_append {K V : Type} [DecidableEq K] :
    ∀ (m m' : List (K × V)) (k : K),
      lookupD (m ++ m') k =
        (match lookupD m k with
         | some v => some v
         | none => lookupD m' k)
  | [], m', k => rfl
  | p :: rest, m', k => by
    by_cases h : p.1 = k
    · simp [lookupD, h]
    · simp [lookupD, h, lookupD_append rest m' k]

/-- Overwriting a key makes its lookup return the new value. -/
theorem lookupD_dictInsert_self {K V : Type} [DecidableEq K]
    (m : List (K × V)) (k : K) (v : V) :
    lookupD (dictInsert m k v) k = some v := by
  unfold dictInsert
  by_cases h : (lookupD m k).isSome
  · rw [if_pos h]
    induction m with
    | nil => simp [lookupD] at h
    | cons p rest ih =>
      by_cases hp : p.1 = k
      · simp [lookupD, hp]
      · rw [List.map_cons]
        rw [show (if p.1 = k then (k, v) else p) = p from if_neg hp]
        rw [lookupD, if_neg hp]
        rw [lookupD, if_neg hp] at h
        exact ih h
  · rw [if_neg h]
    rw [lookupD_append]
    have hnone : lookupD m k = none := by
      cases hl : lookupD m k
      · rfl
      · rw [hl] at h; simp at h
    rw [hnone]
    simp [lookupD]

/-- Overwriting the entry of key `k` in place does not affect the lookup of
any other key. -/
theorem lookupD_map_overwrite {K V : Type} [DecidableEq K]
    (k : K) (v : V) {n : K} (hne : n ≠ k) :
    ∀ m : List (K × V),
      lookupD (m.map fun p => if p.1 = k then (k, v) else p) n = lookupD m n
  | [] => rfl
  | p :: rest => by
    rw [List.map_cons]
    by_cases hp : p.1 = k
    · rw [show (if p.1 = k then (k, v) else p) = (k, v) from if_pos hp]
      rw [lookupD, if_neg (Ne.symm hne), lookupD,
        if_neg (fun hc => hne (hc.symm.trans hp))]
      exact lookupD_map_overwrite k v hne rest
    · rw [show (if p.1 = k then (k, v) else p) = p from if_neg hp]
      rw [lookupD, lookupD]
      by_cases hq : p.1 = n
      · rw [if_pos hq, if_pos hq]
      · rw [if_neg hq, if_neg hq]
        exact lookupD_map_overwrite k v hne rest

/-- Overwriting one key leaves every other key's lookup unchanged. -/
theorem lookupD_dictInsert_ne {K V : Type} [DecidableEq K]
    (m : List (K × V)) (k : K) (v : V) {n : K} (hne : n ≠ k) :
    lookupD (dictInsert m k v) n = lookupD m n := by
  unfold dictInsert
  by_cases h : (lookupD m k).isSome
  · rw [if_pos h]
    exact lookupD_map_overwrite k v hne m
  · rw [if_neg h, lookupD_append]
    cases hl : lookupD m n
    · simp [lookupD, Ne.symm hne]
    · simp

/-- Inserting a fresh key appends the entry. -/
theorem dictInsert_of_none {K V : Type} [DecidableEq K]
    {m : List (K × V)} {k : K} (v : V) (h : lookupD m k = none) :
    dictInsert m k v = m ++ [(k, v)] := by
  unfold dictInsert
  rw [h]
  rfl

/-- Overwriting a present key keeps the length. -/
theorem length_dictInsert_isSome {K V : Type} [DecidableEq K]
    {m : List (K × V)} {k : K} (v : V) (h : (lookupD m k).isSome) :
    (dictInsert m k v).length = m.length := by
  unfold dictInsert
  rw [if_pos h, List.length_map]

/-- Erasing a key that is not present changes nothing. -/
theorem eraseKey_of_not_mem {K V : Type} [DecidableEq K]
    {m : List (K × V)} {k : K} (h : k ∉ m.map Prod.fst) :
    eraseKey m k = m := by
  induction m with
  | nil => rfl
  | cons p rest ih =>
    simp only [List.map_cons, List.mem_cons, not_or] at h
    unfold eraseKey at ih ⊢
    rw [List.filter_cons, if_pos (by simpa using Ne.symm h.1)]
    rw [ih h.2]

/-- Erasing one key leaves every other key's lookup unchanged. -/
theorem lookupD_eraseKey_ne {K V : Type} [DecidableEq K]
    (m : List (K × V)) (k : K) {n : K} (hne : n ≠ k) :
    lookupD (eraseKey m k) n = lookupD m n := by
  induction m with
  | nil => rfl
  | cons p rest ih =>
    unfold eraseKey at ih ⊢
    rw [List.filter_cons]
    by_cases hp : p.1 = k
    · rw [if_neg (by simpa using hp), lookupD,
        if_neg (fun hc => hne (hc.symm.trans hp))]
      exact ih
    · rw [if_pos (by simpa using hp), lookupD, lookupD]
      by_cases hq : p.1 = n
      · rw [if_pos hq, if_pos hq]
      · rw [if_neg hq, if_neg hq]
        exact ih

/-- Erasing the head's key of a key-nodup list gives the tail. -/
theorem eraseKey_cons_self {K V : Type} [DecidableEq K]
    {p : K × V} {rest : List (K × V)}
    (hnd : ((p :: rest).map Prod.fst).Nodup) :
    eraseKey (p :: rest) p.1 = rest := by
  simp only [List.map_cons, List.nodup_cons] at hnd
  unfold eraseKey
  rw [List.filter_cons, if_neg (by simp)]
  exact eraseKey_of_not_mem hnd.1

/-- Erasing the key of a present entry of a key-nodup list shortens it by
exactly one. -/
theorem length_eraseKey_mem {K V : Type} [DecidableEq K] :
    ∀ {m : List (K × V)}, (m.map Prod.fst).Nodup →
      ∀ {p : K × V}, p ∈ m → (eraseKey m p.1).length + 1 = m.length := by
  intro m
  induction m with
  | nil => intro _ p hp; cases hp
  | cons q rest ih =>
    intro hnd p hp
    rcases List.mem_cons.mp hp with rfl | hmem
    · rw [eraseKey_cons_self hnd]
      rfl
    · have hnd' := hnd
      simp only [List.map_cons, List.nodup_cons] at hnd'
      have hq : q.1 ≠ p.1 := by
        intro hc
        exact hnd'.1 (hc ▸ List.mem_map_of_mem Prod.fst hmem)
      unfold eraseKey at ih ⊢
      rw [List.filter_cons, if_pos (by simpa using hq)]
      show (List.filter _ rest).length + 1 + 1 = rest.length + 1
      rw [ih hnd'.2 hmem]

/-- The running minimum is the start or one of the scanned entries. -/
theorem foldl_minStep_mem {K B : Type} :
    ∀ (xs : List (K × (ℚ × B))) (x),
      xs.foldl minStep x = x ∨ xs.foldl minStep x ∈ xs
  | [], _ => Or.inl rfl
  | p :: xs, x => by
    rw [List.foldl_cons]
    rcases foldl_minStep_mem xs (minStep x p) with h | h
    · rw [h]
      unfold minStep
      by_cases hc : p.2.1 < x.2.1
      · rw [if_pos hc]
        exact Or.inr (List.mem_cons_self p xs)
      · rw [if_neg hc]
        exact Or.inl rfl
    · exact Or.inr (List.mem_cons_of_mem p h)

/-- The running minimum's timestamp bounds the start and every scanned
entry from below. -/
theorem foldl_minStep_le {K B : Type} :
    ∀ (xs : List (K × (ℚ × B))) (x),
      (xs.foldl minStep x).2.1 ≤ x.2.1 ∧
        ∀ p ∈ xs, (xs.foldl minStep x).2.1 ≤ p.2.1
  | [], x => ⟨le_refl _, by intro p hp; cases hp⟩
  | q :: xs, x => by
    rw [List.foldl_cons]
    obtain ⟨h1, h2⟩ := foldl_minStep_le xs (minStep x q)
    have hmin : (minStep x q).2.1 ≤ x.2.1 ∧ (minStep x q).2.1 ≤ q.2.1 := by
      unfold minStep
      by_cases hc : q.2.1 < x.2.1
      · rw [if_pos hc]
        exact ⟨le_of_lt hc, le_refl _⟩
      · rw [if_neg hc]
        exact ⟨le_refl _, le_of_not_lt hc⟩
    refine ⟨le_trans h1 hmin.1, ?_⟩
    intro p hp
    rcases List.mem_cons.mp hp with rfl | hmem
    · exact le_trans h1 hmin.2
    · exact h2 p hmem

/-- If no scanned entry beats the start strictly, the start is kept
(Python's `min` keeps the first entry attaining the minimum). -/
theorem foldl_minStep_of_min {K B : Type} :
    ∀ (xs : List (K × (ℚ × B))) (x), (∀ p ∈ xs, ¬p.2.1 < x.2.1) →
      xs.foldl minStep x = x
  | [], _, _ => rfl
  | q :: xs, x, h => by
    rw [List.foldl_cons]
    have hq : minStep x q = x := by
      unfold minStep
      rw [if_neg (h q (List.mem_cons_self q xs))]
    rw [hq]
    exact foldl_minStep_of_min xs x fun p hp => h p (List.mem_cons_of_mem q hp)

/-- On a list whose head has the strictly smallest timestamp, the oldest
entry is the head. -/
theorem oldestEntry_of_increasing {K B : Type} (x : K × (ℚ × B))
    (xs : List (K × (ℚ × B))) (h : ∀ p ∈ xs, x.2.1 < p.2.1) :
    oldestEntry (x :: xs) = some x := by
  show some (xs.foldl minStep x) = some x
  rw [foldl_minStep_of_min xs x fun p hp => (h p hp).asymm]

/-- Appending an entry whose timestamp is at least every present timestamp
does not change the oldest entry. -/
theorem oldestEntry_append {K B : Type} (x : K × (ℚ × B)) (xs : List (K × (ℚ × B)))
    (y : K × (ℚ × B)) (hy : ∀ p ∈ (x :: xs : List (K × (ℚ × B))), p.2.1 ≤ y.2.1) :
    oldestEntry (x :: (xs ++ [y])) = oldestEntry (x :: xs) := by
  show some ((xs ++ [y]).foldl minStep x) = some (xs.foldl minStep x)
  rw [List.foldl_append]
  congr 1
  show minStep (xs.foldl minStep x) y = xs.foldl minStep x
  unfold minStep
  rw [if_neg]
  intro hlt
  have hb : (xs.foldl minStep x).2.1 ≤ y.2.1 := by
    rcases foldl_minStep_mem xs x with he | he
    · rw [he]
      exact hy x (List.mem_cons_self x xs)
    · exact hy _ (List.mem_cons_of_mem x he)
  exact absurd hlt (not_lt_of_ge hb)

/-- Below capacity, the store step of web.py lines 62-66 is a plain dict
write. -/
theorem cacheStoreMax_le {m : Nat} {cache : Cache} {k : CacheKey} {now : ℚ}
    {rep : SearchReport}
    (h : (dictInsert cache k (now, rep)).length ≤ m) :
    cacheStoreMax m cache k now rep = dictInsert cache k (now, rep) := by
  show (if m < (dictInsert cache k (now, rep)).length then
      match oldestEntry (dictInsert cache k (now, rep)) with
      | some p => eraseKey (dictInsert cache k (now, rep)) p.1
      | none => dictInsert cache k (now, rep)
    else dictInsert cache k (now, rep)) = dictInsert cache k (now, rep)
  rw [if_neg (Nat.not_lt.mpr h)]

/-- Over capacity, the store step evicts exactly one entry, one with the
oldest timestamp. -/
theorem cacheStoreMax_over {m : Nat} {cache : Cache} {k : CacheKey} {now : ℚ}
    {rep : SearchReport}
    (h : m < (dictInsert cache k (now, rep)).length) :
    ∃ p, p ∈ dictInsert cache k (now, rep) ∧
      (∀ q ∈ dictInsert cache k (now, rep), p.2.1 ≤ q.2.1) ∧
      cacheStoreMax m cache k now rep =
        eraseKey (dictInsert cache k (now, rep)) p.1 := by
  have hne : dictInsert cache k (now, rep) ≠ [] := by
    intro hnil
    rw [hnil] at h
    simp at h
  obtain ⟨x, xs, hc⟩ := List.exists_cons_of_ne_nil hne
  refine ⟨xs.foldl minStep x, ?_, ?_, ?_⟩
  · rw [hc]
    rcases foldl_minStep_mem xs x with he | he
    · rw [he]
      exact List.mem_cons_self x xs
    · exact List.mem_cons_of_mem x he
  · intro q hq
    rw [hc] at hq
    rcases List.mem_cons.mp hq with rfl | hmem
    · exact (foldl_minStep_le xs q).1
    · exact (foldl_minStep_le xs x).2 q hmem
  · show (if m < (dictInsert cache k (now, rep)).length then
        match oldestEntry (dictInsert cache k (now, rep)) with
        | some p => eraseKey (dictInsert cache k (now, rep)) p.1
        | none => dictInsert cache k (now, rep)
      else dictInsert cache k (now, rep)) = _
    rw [if_pos h, hc]
    rfl

/-- Folding the store step over fresh keys while within capacity appends
every entry and never evicts. -/
theorem foldStore_fill (m : Nat) :
    ∀ (ps c : Cache), ((c ++ ps).map Prod.fst).Nodup →
      (c ++ ps).length ≤ m → foldStoreMax m c ps = c ++ ps := by
  intro ps
  induction ps with
  | nil => intro c _ _; simp [foldStoreMax]
  | cons p ps ih =>
    intro c hnd hlen
    unfold foldStoreMax
    rw [List.foldl_cons]
    have hfresh : lookupD c p.1 = none := by
      rw [lookupD_eq_none]
      intro hmem
      rw [List.map_append] at hnd
      exact (List.nodup_append.mp hnd).2.2 hmem
        (List.mem_map_of_mem Prod.fst (List.mem_cons_self p ps))
    have hstep : cacheStoreMax m c p.1 p.2.1 p.2.2 = c ++ [p] := by
      have hins : dictInsert c p.1 (p.2.1, p.2.2) = c ++ [p] :=
        dictInsert_of_none _ hfresh
      have hle : (dictInsert c p.1 (p.2.1, p.2.2)).length ≤ m := by
        rw [hins]
        simp only [List.length_append, List.length_cons] at hlen ⊢
        simp at hlen ⊢
        omega
      rw [cacheStoreMax_le hle, hins]
    rw [hstep]
    have hrec := ih (c ++ [p])
      (by rw [List.append_assoc]; exact hnd)
      (by rw [List.append_assoc]; exact hlen)
    unfold foldStoreMax at hrec
    rw [hrec, List.append_assoc]
    rfl

/-- The store step on a full cache of strictly increasing timestamps with a
fresh, newest key evicts exactly the head. -/
theorem cacheStore_last (m : Nat) (hm : 0 < m) (c : Cache)
    (x : CacheKey × (ℚ × SearchReport))
    (hnd : ((c ++ [x]).map Prod.fst).Nodup)
    (hinc : ((c ++ [x]).map fun p => p.2.1).Pairwise (· < ·))
    (hlen : c.length = m) :
    cacheStoreMax m c x.1 x.2.1 x.2.2 = c.tail ++ [x] := by
  obtain ⟨y, c', rfl⟩ : ∃ y c', c = y :: c' := by
    cases c with
    | nil => rw [List.length_nil] at hlen; omega
    | cons y c' => exact ⟨y, c', rfl⟩
  have hfresh : lookupD (y :: c') x.1 = none := by
    rw [lookupD_eq_none]
    intro hmem
    rw [List.map_append] at hnd
    exact (List.nodup_append.mp hnd).2.2 hmem
      (List.mem_map_of_mem Prod.fst (List.mem_cons_self x []))
  have hins : dictInsert (y :: c') x.1 (x.2.1, x.2.2) = (y :: c') ++ [x] :=
    dictInsert_of_none _ hfresh
  have hover : m < (dictInsert (y :: c') x.1 (x.2.1, x.2.2)).length := by
    rw [hins]
    simp only [List.length_cons] at hlen
    simp [List.length_append]
    omega
  show (if m < (dictInsert (y :: c') x.1 (x.2.1, x.2.2)).length then
      match oldestEntry (dictInsert (y :: c') x.1 (x.2.1, x.2.2)) with
      | some p => eraseKey (dictInsert (y :: c') x.1 (x.2.1, x.2.2)) p.1
      | none => dictInsert (y :: c') x.1 (x.2.1, x.2.2)
    else dictInsert (y :: c') x.1 (x.2.1, x.2.2)) = c' ++ [x]
  rw [if_pos hover, hins, List.cons_append]
  have hpw : (y :: (c' ++ [x])).Pairwise fun a b => a.2.1 < b.2.1 := by
    apply List.pairwise_map.mp
    exact hinc
  have hmin : oldestEntry (y :: (c' ++ [x])) = some y :=
    oldestEntry_of_increasing y (c' ++ [x]) (List.pairwise_cons.mp hpw).1
  rw [hmin]
  show eraseKey (y :: (c' ++ [x])) y.1 = c' ++ [x]
  exact eraseKey_cons_self hnd

/-- The full eviction scenario: starting from an empty cache, inserting
`m + 1` distinct keys at strictly increasing timestamps leaves exactly the
last `m` insertions; the first (oldest) one is gone. -/
theorem foldStore_scenario (m : Nat) (hm : 0 < m)
    (p0 : CacheKey × (ℚ × SearchReport)) (rest : Cache)
    (hnd : ((p0 :: rest).map Prod.fst).Nodup)
    (hinc : ((p0 :: rest).map fun p => p.2.1).Pairwise (· < ·))
    (hlen : (p0 :: rest).length = m + 1) :
    foldStoreMax m [] (p0 :: rest) = rest := by
  have hrlen : rest.length = m := by simpa using hlen
  obtain ⟨front, lastE, rfl⟩ : ∃ front lastE, rest = front ++ [lastE] := by
    rcases List.eq_nil_or_concat rest with h | ⟨L, b, h⟩
    · rw [h] at hrlen
      simp at hrlen
      omega
    · exact ⟨L, b, by simpa [List.concat_eq_append] using h⟩
  unfold foldStoreMax
  rw [List.foldl_cons]
  have hstep0 : cacheStoreMax m [] p0.1 p0.2.1 p0.2.2 = [p0] := by
    have hins : dictInsert ([] : Cache) p0.1 (p0.2.1, p0.2.2) = [p0] := rfl
    have hle : (dictInsert ([] : Cache) p0.1 (p0.2.1, p0.2.2)).length ≤ m := by
      rw [hins]
      simpa using hm
    rw [cacheStoreMax_le hle, hins]
  rw [hstep0, List.foldl_append]
  have hfrontlen : front.length + 1 = m := by
    simpa using hrlen
  have hsub : ((p0 :: front).map Prod.fst).Nodup := by
    have hs : List.Sublist (p0 :: front) (p0 :: (front ++ [lastE])) :=
      List.Sublist.cons₂ p0 (List.sublist_append_left front [lastE])
    exact List.Nodup.sublist (List.Sublist.map Prod.fst hs) hnd
  have hfill := foldStore_fill m front [p0]
    (by exact hsub)
    (by simp only [List.length_append, List.length_cons, List.length_nil]; omega)
  unfold foldStoreMax at hfill
  rw [hfill]
  have hlast := cacheStore_last m hm (p0 :: front) lastE
    (by exact hnd)
    (by exact hinc)
    (by simpa using hfrontlen)
  exact hlast

/-- C4: a cache hit (entry present and younger than the TTL) returns the
stored report unchanged, for any compute function, leaving the cache as is;
a miss invokes the compute function, returns the freshly computed report and
stores it under the key with the current timestamp (the stored entry is
present afterwards for any well-formed cache state: at most MAX_ITEMS
entries, all timestamps at most now). -/
theorem bp_c4 (cache : Cache) (key : CacheKey) (now : ℚ)
    (compute : Unit → Except String SearchReport) :
    (∀ ts rep, lookupD cache key = some (ts, rep) →
      now - ts < _CACHE_TTL_SECONDS →
      _cached_search cache key now compute = (Except.ok rep, cache)) ∧
    (∀ rep, (∀ c, lookupD cache key = some c →
        ¬(now - c.1 < _CACHE_TTL_SECONDS)) →
      compute () = Except.ok rep →
      _cached_search cache key now compute =
        (Except.ok rep, cacheStore cache key now rep) ∧
      (cache.length ≤ _CACHE_MAX_ITEMS → (∀ p ∈ cache, p.2.1 ≤ now) →
        lookupD (cacheStore cache key now rep) key = some (now, rep))) := by
  constructor
  · intro ts rep hl hfresh
    unfold _cached_search
    rw [hl]
    show (if now - ts < _CACHE_TTL_SECONDS then (Except.ok rep, cache)
      else cacheMissCompute cache key now compute) = _
    rw [if_pos hfresh]
  · intro rep hstale hok
    have hmiss : _cached_search cache key now compute =
        cacheMissCompute cache key now compute := by
      unfold _cached_search
      cases hl : lookupD cache key with
      | none => rfl
      | some c =>
        show (if now - c.1 < _CACHE_TTL_SECONDS then (Except.ok c.2, cache)
          else cacheMissCompute cache key now compute) = _
        rw [if_neg (hstale c hl)]
    constructor
    · rw [hmiss]
      unfold cacheMissCompute
      rw [hok]
    · intro hcap hts
      show lookupD (cacheStoreMax _CACHE_MAX_ITEMS cache key now rep) key =
        some (now, rep)
      cases hl : lookupD cache key with
      | some c =>
        have hsome : (lookupD cache key).isSome := by rw [hl]; rfl
        have hlen : (dictInsert cache key (now, rep)).length ≤
            _CACHE_MAX_ITEMS := by
          rw [length_dictInsert_isSome _ hsome]
          exact hcap
        rw [cacheStoreMax_le hlen]
        exact lookupD_dictInsert_self cache key (now, rep)
      | none =>
        have hins : dictInsert cache key (now, rep) =
            cache ++ [(key, (now, rep))] := dictInsert_of_none _ hl
        by_cases hov :
            _CACHE_MAX_ITEMS < (dictInsert cache key (now, rep)).length
        · obtain ⟨x, xs, rfl⟩ : ∃ x xs, cache = x :: xs := by
            cases cache with
            | nil =>
              exfalso
              rw [hins] at hov
              simp [_CACHE_MAX_ITEMS] at hov
            | cons x xs => exact ⟨x, xs, rfl⟩
          have hc1 : dictInsert (x :: xs) key (now, rep) =
              x :: (xs ++ [(key, (now, rep))]) := by
            rw [hins, List.cons_append]
          have hold : oldestEntry (x :: (xs ++ [(key, (now, rep))])) =
              oldestEntry (x :: xs) :=
            oldestEntry_append x xs (key, (now, rep)) fun p hp => hts p hp
          have hbne : key ≠ (xs.foldl minStep x).1 := by
            have hmemc : xs.foldl minStep x ∈ x :: xs := by
              rcases foldl_minStep_mem xs x with he | he
              · rw [he]
                exact List.mem_cons_self x xs
              · exact List.mem_cons_of_mem x he
            have hkeys := (lookupD_eq_none (x :: xs) key).mp hl
            intro hc
            exact hkeys (hc ▸ List.mem_map_of_mem Prod.fst hmemc)
          have hstore : cacheStoreMax _CACHE_MAX_ITEMS (x :: xs) key now rep =
              eraseKey (dictInsert (x :: xs) key (now, rep))
                (xs.foldl minStep x).1 := by
            show (if _CACHE_MAX_ITEMS <
                (dictInsert (x :: xs) key (now, rep)).length then
                match oldestEntry (dictInsert (x :: xs) key (now, rep)) with
                | some p => eraseKey (dictInsert (x :: xs) key (now, rep)) p.1
                | none => dictInsert (x :: xs) key (now, rep)
              else dictInsert (x :: xs) key (now, rep)) = _
            rw [if_pos hov, hc1, hold]
            rw [← hc1]
            rfl
          rw [hstore, lookupD_eraseKey_ne _ _ hbne]
          exact lookupD_dictInsert_self _ _ _
        · rw [cacheStoreMax_le (Nat.not_lt.mp hov)]
          exact lookupD_dictInsert_self _ _ _

/-- C4 witnessed on a one-entry cache: a hit at now = 20 on an entry stored
at 10 returns the cached report for any compute function; a miss at
now = 400 computes, returns and stores the fresh report. -/
theorem bp_c4_witness :
    _cached_search [(("q", 5, false), (10, rep0))] ("q", 5, false) 20
        (fun _ => Except.ok rep1) =
      (Except.ok rep0, [(("q", 5, false), (10, rep0))]) ∧
    _cached_search [(("q", 5, false), (10, rep0))] ("q", 5, false) 400
        (fun _ => Except.ok rep1) =
      (Except.ok rep1,
        cacheStore [(("q", 5, false), (10, rep0))] ("q", 5, false) 400 rep1) ∧
    lookupD (cacheStore [(("q", 5, false), (10, rep0))] ("q", 5, false) 400 rep1)
      ("q", 5, false) = some (400, rep1) := by
  have h1 := (bp_c4 [(("q", 5, false), (10, rep0))] ("q", 5, false) 20
      (fun _ => Except.ok rep1)).1 10 rep0 rfl
    (by norm_num [_CACHE_TTL_SECONDS])
  have h2 := (bp_c4 [(("q", 5, false), (10, rep0))] ("q", 5, false) 400
      (fun _ => Except.ok rep1)).2 rep1
    (by
      intro c hc
      have hceq : some ((10 : ℚ), rep0) = some c := Eq.trans (by rfl) hc
      injection hceq with hce
      rw [← hce]
      norm_num [_CACHE_TTL_SECONDS])
    rfl
  refine ⟨h1, h2.1, h2.2 (by simp [_CACHE_MAX_ITEMS]) ?_⟩
  intro p hp
  rcases List.mem_singleton.mp hp with rfl
  norm_num

/-- C5: after each store, if the dict write leaves at most MAX_ITEMS entries
nothing is evicted; if it exceeds MAX_ITEMS, exactly one entry with minimal
timestamp is evicted (one fewer entry, under distinct keys); and inserting
MAX_ITEMS + 1 distinct keys at strictly increasing timestamps into an empty
cache leaves exactly MAX_ITEMS entries with the oldest key absent. -/
theorem bp_c5 :
    (∀ (cache : Cache) (k : CacheKey) (now : ℚ) (rep : SearchReport),
       (dictInsert cache k (now, rep)).length ≤ _CACHE_MAX_ITEMS →
       cacheStore cache k now rep = dictInsert cache k (now, rep)) ∧
    (∀ (cache : Cache) (k : CacheKey) (now : ℚ) (rep : SearchReport),
       _CACHE_MAX_ITEMS < (dictInsert cache k (now, rep)).length →
       ∃ p, p ∈ dictInsert cache k (now, rep) ∧
         (∀ q ∈ dictInsert cache k (now, rep), p.2.1 ≤ q.2.1) ∧
         cacheStore cache k now rep =
           eraseKey (dictInsert cache k (now, rep)) p.1 ∧
         (((dictInsert cache k (now, rep)).map Prod.fst).Nodup →
           (cacheStore cache k now rep).length + 1 =
             (dictInsert cache k (now, rep)).length)) ∧
    (∀ (p0 : CacheKey × (ℚ × SearchReport)) (rest : Cache),
       ((p0 :: rest).map Prod.fst).Nodup →
       ((p0 :: rest).map fun p => p.2.1).Pairwise (· < ·) →
       (p0 :: rest).length = _CACHE_MAX_ITEMS + 1 →
       (foldStoreMax _CACHE_MAX_ITEMS [] (p0 :: rest)).length =
         _CACHE_MAX_ITEMS ∧
       lookupD (foldStoreMax _CACHE_MAX_ITEMS [] (p0 :: rest)) p0.1 = none) := by
  refine ⟨?_, ?_, ?_⟩
  · intro cache k now rep h
    exact cacheStoreMax_le h
  · intro cache k now rep h
    obtain ⟨p, hpmem, hmin, he⟩ := cacheStoreMax_over h
    refine ⟨p, hpmem, hmin, he, ?_⟩
    intro hnd
    show (cacheStoreMax _CACHE_MAX_ITEMS cache k now rep).length + 1 = _
    rw [he]
    exact length_eraseKey_mem hnd hpmem
  · intro p0 rest hnd hinc hlen
    have hfs := foldStore_scenario _CACHE_MAX_ITEMS
      (by norm_num [_CACHE_MAX_ITEMS]) p0 rest hnd hinc hlen
    rw [hfs]
    refine ⟨by simpa using hlen, ?_⟩
    rw [lookupD_eq_none]
    simp only [List.map_cons, List.nodup_cons] at hnd
    exact hnd.1

/-- C5 witnessed on the concrete 51-insertion sequence. -/
theorem bp_c5_witness :
    (foldStoreMax _CACHE_MAX_ITEMS [] (pEvict0 :: psEvictRest)).length =
      _CACHE_MAX_ITEMS ∧
    lookupD (foldStoreMax _CACHE_MAX_ITEMS [] (pEvict0 :: psEvictRest))
      pEvict0.1 = none := by
  apply bp_c5.2.2 pEvict0 psEvictRest
  · have hkeys : (pEvict0 :: psEvictRest).map Prod.fst =
        ("q", (0 : Int), false) ::
          (List.range 50).map fun (i : ℕ) => ("q", ((i : Int) + 1), false) := by
      rw [List.map_cons]
      congr 1
    rw [hkeys]
    refine List.nodup_cons.mpr ⟨?_, ?_⟩
    · intro hmem
      rcases List.mem_map.mp hmem with ⟨i, _, heq⟩
      have hzero : (i : Int) + 1 = 0 := congrArg (fun t => t.2.1) heq
      omega
    · refine List.Nodup.map ?_ (List.nodup_range 50)
      intro a b hab
      have h2 : (a : Int) + 1 = (b : Int) + 1 := congrArg (fun t => t.2.1) hab
      omega
  · have hts : (pEvict0 :: psEvictRest).map (fun p => p.2.1) =
        (0 : ℚ) :: (List.range 50).map fun (i : ℕ) => (i : ℚ) + 1 := by
      rw [List.map_cons]
      congr 1
    rw [hts]
    refine List.pairwise_cons.mpr ⟨?_, ?_⟩
    · intro b hb
      rcases List.mem_map.mp hb with ⟨i, _, rfl⟩
      have hnn : (0 : ℚ) ≤ (i : ℚ) := Nat.cast_nonneg i
      linarith
    · refine List.pairwise_map.mpr ?_
      refine List.Pairwise.imp ?_ (List.pairwise_lt_range 50)
      intro x y hab
      have hc := (Nat.cast_lt (α := ℚ)).mpr hab
      linarith
  · show (pEvict0 :: psEvictRest).length = _CACHE_MAX_ITEMS + 1
    unfold psEvictRest
    rw [List.length_cons, List.length_map, List.length_range]
    rfl

/-- C7: if on a miss the compute function raises, no entry is stored (the
cache is returned unchanged) and the exception propagates. -/
theorem bp_c7 (cache : Cache) (key : CacheKey) (now : ℚ)
    (compute : Unit → Except String SearchReport) (e : String)
    (hstale : ∀ c, lookupD cache key = some c →
      ¬(now - c.1 < _CACHE_TTL_SECONDS))
    (he : compute () = Except.error e) :
    _cached_search cache key now compute = (Except.error e, cache) := by
  have hmiss : _cached_search cache key now compute =
      cacheMissCompute cache key now compute := by
    unfold _cached_search
    cases hl : lookupD cache key with
    | none => rfl
    | some c =>
      show (if now - c.1 < _CACHE_TTL_SECONDS then (Except.ok c.2, cache)
        else cacheMissCompute cache key now compute) = _
      rw [if_neg (hstale c hl)]
  rw [hmiss]
  unfold cacheMissCompute
  rw [he]

/-- C7 witnessed on an empty cache with a raising compute function. -/
theorem bp_c7_witness :
    _cached_search [] ("q", 5, false) 0 (fun _ => Except.error "down") =
      (Except.error "down", []) :=
  bp_c7 [] ("q", 5, false) 0 (fun _ => Except.error "down") "down"
    (fun _ hc => nomatch hc) rfl

/-- The structural substring test decides the infix relation. -/
theorem listIsInfixOf_iff {α : Type} [DecidableEq α] (needle : List α) :
    ∀ hay : List α, listIsInfixOf needle hay = true ↔ needle <:+: hay
  | [] => by
    unfold listIsInfixOf
    simp [List.isEmpty_iff]
  | a :: hay => by
    unfold listIsInfixOf
    rw [List.infix_cons_iff]
    simp [listIsInfixOf_iff needle hay]

/-- The inner deal loop as a filter-and-tag: exactly the results with
positive base price, identifier or title match, and effective price within
the ceiling, in input order. -/
theorem dealsForEntry_eq (e : WishlistEntry) (c : ℚ) :
    ∀ rs : List BookResult,
      dealsForEntry e c rs =
        (rs.filter fun r => !decide (r.price ≤ 0) &&
          ((isbnMatch e r || titleMatch e r) && decide (r.total_price ≤ c))).map
          fun r => (e, r)
  | [] => rfl
  | r :: rest => by
    unfold dealsForEntry
    rw [List.filter_cons]
    by_cases h1 : r.price ≤ 0
    · rw [if_pos h1]
      simp [h1, dealsForEntry_eq e c rest]
    · rw [if_neg h1]
      by_cases h2 :
          ((isbnMatch e r || titleMatch e r) && decide (r.total_price ≤ c)) = true
      · rw [if_pos h2]
        simp [h1, h2, dealsForEntry_eq e c rest]
      · rw [if_neg h2]
        simp [h1, h2, dealsForEntry_eq e c rest]

/-- The function `check_wishlist_deals` in grouped form: one block per wishlist entry, in
wishlist order; inside a block the matching results in input order, each
tagged with the entry; entries with NULL ceiling contribute nothing. -/
theorem check_wishlist_deals_eq :
    ∀ (wl : List WishlistEntry) (rs : List BookResult),
      check_wishlist_deals wl rs =
        wl.flatMap fun e =>
          match e.max_price with
          | none => []
          | some c =>
            (rs.filter fun r => !decide (r.price ≤ 0) &&
              ((isbnMatch e r || titleMatch e r) &&
                decide (r.total_price ≤ c))).map fun r => (e, r)
  | [], _ => rfl
  | e :: rest, rs => by
    unfold check_wishlist_deals
    rw [List.flatMap_cons]
    cases hm : e.max_price with
    | none => simp [check_wishlist_deals_eq rest rs]
    | some c =>
      show dealsForEntry e c rs ++ check_wishlist_deals rest rs = _
      rw [dealsForEntry_eq, check_wishlist_deals_eq rest rs]

/-- The rate-limit check with the defaultdict read spelled out. -/
theorem rateLimitCheck_eq (m : List (String × ℚ)) (ip : String) (now : ℚ) :
    rateLimitCheck m ip now =
      if now - lastSearchGet m ip < _RATE_LIMIT_SECONDS
      then (false, dictInsert m ip (lastSearchGet m ip))
      else (true, dictInsert (dictInsert m ip (lastSearchGet m ip)) ip now) := rfl

/-- Reading a just-written identity gives the written timestamp. -/
theorem lastSearchGet_dictInsert (m : List (String × ℚ)) (ip : String) (v : ℚ) :
    lastSearchGet (dictInsert m ip v) ip = v := by
  unfold lastSearchGet
  rw [lookupD_dictInsert_self]
  rfl

/-- The request is denied exactly when the window has not yet elapsed since
the stored (or default 0) timestamp. -/
theorem rateLimit_fst_false {m : List (String × ℚ)} {ip : String} {now : ℚ} :
    (rateLimitCheck m ip now).1 = false ↔
      now - lastSearchGet m ip < _RATE_LIMIT_SECONDS := by
  rw [rateLimitCheck_eq]
  by_cases h : now - lastSearchGet m ip < _RATE_LIMIT_SECONDS
  · rw [if_pos h]
    simp [h]
  · rw [if_neg h]
    simp [h]

/-- The request is allowed exactly when the window has elapsed. -/
theorem rateLimit_fst_true {m : List (String × ℚ)} {ip : String} {now : ℚ} :
    (rateLimitCheck m ip now).1 = true ↔
      ¬(now - lastSearchGet m ip < _RATE_LIMIT_SECONDS) := by
  rw [rateLimitCheck_eq]
  by_cases h : now - lastSearchGet m ip < _RATE_LIMIT_SECONDS
  · rw [if_pos h]
    simp [h]
  · rw [if_neg h]
    simp [h]

/-- An allowed request overwrites the identity's timestamp with now. -/
theorem rateLimit_state_allowed {m : List (String × ℚ)} {ip : String} {now : ℚ}
    (h : (rateLimitCheck m ip now).1 = true) :
    lastSearchGet (rateLimitCheck m ip now).2 ip = now := by
  rw [rateLimitCheck_eq] at h ⊢
  by_cases hc : now - lastSearchGet m ip < _RATE_LIMIT_SECONDS
  · rw [if_pos hc] at h
    simp at h
  · rw [if_neg hc]
    exact lastSearchGet_dictInsert _ ip now

/-- A denied request leaves the identity's effective timestamp unchanged
(the defaultdict read only materialises the current value). -/
theorem rateLimit_state_denied {m : List (String × ℚ)} {ip : String} {now : ℚ}
    (h : (rateLimitCheck m ip now).1 = false) :
    lastSearchGet (rateLimitCheck m ip now).2 ip = lastSearchGet m ip := by
  rw [rateLimitCheck_eq] at h ⊢
  by_cases hc : now - lastSearchGet m ip < _RATE_LIMIT_SECONDS
  · rw [if_pos hc]
    exact lastSearchGet_dictInsert _ ip _
  · rw [if_neg hc] at h
    simp at h

/-- C6 counterexample: a never-seen identity is not always allowed. With an
empty window map and now = 1, the defaultdict read yields 0 and
1 - 0 < 5 denies the request, while the claim demands that a never-seen
identity be allowed. -/
theorem bp_c6_cex :
    lookupD ([] : List (String × ℚ)) "1.2.3.4" = none ∧
    (rateLimitCheck [] "1.2.3.4" 1).1 = false := by
  refine ⟨rfl, ?_⟩
  rw [rateLimitCheck_eq,
    if_pos (by norm_num [lastSearchGet, lookupD, _RATE_LIMIT_SECONDS])]

/-- C6 amended: a previously seen identity is denied while now - stored < 5
and allowed afterwards; a never-seen identity reads as last seen at
timestamp 0, so it is allowed iff now is at least MIN_INTERVAL; the stored
timestamp is updated only on allowed calls, so a denied call does not reset
the window; hence allowed/denied/allowed for calls at t0, t1 (within the
window), t2 (past the window since t0). -/
theorem bp_c6_amended (m : List (String × ℚ)) (ip : String) (now : ℚ) :
    (∀ ts, lookupD m ip = some ts → now - ts < _RATE_LIMIT_SECONDS →
      (rateLimitCheck m ip now).1 = false) ∧
    (lookupD m ip = none → now < _RATE_LIMIT_SECONDS →
      (rateLimitCheck m ip now).1 = false) ∧
    (lookupD m ip = none → _RATE_LIMIT_SECONDS ≤ now →
      (rateLimitCheck m ip now).1 = true) ∧
    (∀ ts, lookupD m ip = some ts → ¬(now - ts < _RATE_LIMIT_SECONDS) →
      (rateLimitCheck m ip now).1 = true) ∧
    ((rateLimitCheck m ip now).1 = true →
      lastSearchGet (rateLimitCheck m ip now).2 ip = now) ∧
    ((rateLimitCheck m ip now).1 = false →
      lastSearchGet (rateLimitCheck m ip now).2 ip = lastSearchGet m ip) ∧
    (∀ t0 t1 t2 : ℚ, (rateLimitCheck m ip t0).1 = true →
      t1 - t0 < _RATE_LIMIT_SECONDS → _RATE_LIMIT_SECONDS ≤ t2 - t0 →
      (rateLimitCheck (rateLimitCheck m ip t0).2 ip t1).1 = false ∧
      (rateLimitCheck
        (rateLimitCheck (rateLimitCheck m ip t0).2 ip t1).2 ip t2).1 = true) := by
  refine ⟨?_, ?_, ?_, ?_, rateLimit_state_allowed, rateLimit_state_denied, ?_⟩
  · intro ts hl hlt
    have hg : lastSearchGet m ip = ts := by
      unfold lastSearchGet
      rw [hl]
      rfl
    exact rateLimit_fst_false.mpr (by rw [hg]; exact hlt)
  · intro hl hlt
    have hg : lastSearchGet m ip = 0 := by
      unfold lastSearchGet
      rw [hl]
      rfl
    exact rateLimit_fst_false.mpr (by rw [hg]; linarith)
  · intro hl hge
    have hg : lastSearchGet m ip = 0 := by
      unfold lastSearchGet
      rw [hl]
      rfl
    exact rateLimit_fst_true.mpr (by rw [hg]; intro hc; linarith)
  · intro ts hl hge
    have hg : lastSearchGet m ip = ts := by
      unfold lastSearchGet
      rw [hl]
      rfl
    exact rateLimit_fst_true.mpr (by rw [hg]; exact hge)
  · intro t0 t1 t2 hall h1 h2
    have hst : lastSearchGet (rateLimitCheck m ip t0).2 ip = t0 :=
      rateLimit_state_allowed hall
    have hden : (rateLimitCheck (rateLimitCheck m ip t0).2 ip t1).1 = false :=
      rateLimit_fst_false.mpr (by rw [hst]; exact h1)
    refine ⟨hden, ?_⟩
    have hst2 : lastSearchGet
        (rateLimitCheck (rateLimitCheck m ip t0).2 ip t1).2 ip = t0 := by
      rw [rateLimit_state_denied hden, hst]
    exact rateLimit_fst_true.mpr (by rw [hst2]; intro hc; linarith)

/-- C6 amended, witnessed at a concrete burst: calls at 10, 12, 15 from one
identity are allowed, denied, allowed. -/
theorem bp_c6_amended_witness :
    (rateLimitCheck [] "ip" 10).1 = true ∧
    (rateLimitCheck (rateLimitCheck [] "ip" 10).2 "ip" 12).1 = false ∧
    (rateLimitCheck
      (rateLimitCheck (rateLimitCheck [] "ip" 10).2 "ip" 12).2 "ip" 15).1 =
      true := by
  have h := bp_c6_amended [] "ip" 10
  have hall : (rateLimitCheck [] "ip" 10).1 = true :=
    h.2.2.1 rfl (by norm_num [_RATE_LIMIT_SECONDS])
  have hg := h.2.2.2.2.2.2 10 12 15 hall
    (by norm_num [_RATE_LIMIT_SECONDS]) (by norm_num [_RATE_LIMIT_SECONDS])
  exact ⟨hall, hg.1, hg.2⟩

/-- C8: the deal list is grouped by wishlist entry in the order the entries
were supplied; within one entry the matches follow the input quote order,
each tagged with that entry (so a quote matching several entries appears
once per matching entry, with no deduplication); entries with a NULL
ceiling contribute nothing. -/
theorem bp_c8 (wl : List WishlistEntry) (rs : List BookResult) :
    check_wishlist_deals wl rs =
      wl.flatMap fun e =>
        match e.max_price with
        | none => []
        | some c =>
          (rs.filter fun r => !decide (r.price ≤ 0) &&
            ((isbnMatch e r || titleMatch e r) &&
              decide (r.total_price ≤ c))).map fun r => (e, r) :=
  check_wishlist_deals_eq wl rs

/-- C3 counterexample: the code skips quotes by base price, not effective
price. A quote with base price 0 and shipping 5 has effective price 5 > 0,
the entry's title matches and 5 <= the 20.00 ceiling, yet the code produces
no pair. -/
theorem bp_c3_cex :
    entryDune.max_price = some 20 ∧
    0 < quoteFreeShip.total_price ∧
    List.IsInfix (entryDune.title.toList.map Char.toLower)
      (quoteFreeShip.title.toList.map Char.toLower) ∧
    quoteFreeShip.total_price ≤ 20 ∧
    check_wishlist_deals [entryDune] [quoteFreeShip] = [] := by
  refine ⟨rfl, by norm_num [quoteFreeShip, BookResult.total_price], ?_,
    by norm_num [quoteFreeShip, BookResult.total_price], ?_⟩
  · exact (listIsInfixOf_iff _ _).mp (by decide)
  · show dealsForEntry entryDune 20 [quoteFreeShip] ++
      check_wishlist_deals [] [quoteFreeShip] = []
    have hf : ([quoteFreeShip].filter fun r => !decide (r.price ≤ 0) &&
        ((isbnMatch entryDune r || titleMatch entryDune r) &&
          decide (r.total_price ≤ 20))) = [] := by
      rw [List.filter_cons, if_neg (by norm_num [quoteFreeShip])]
      rfl
    rw [dealsForEntry_eq, hf]
    rfl

/-- C3 amended: for a wishlist entry with non-null ceiling and a quote with
positive base price (the code's filter; the spec says effective price), the
pair is produced exactly when (both identifiers non-empty and equal, or the
entry title is a case-insensitive substring of the quote title) and the
effective price is within the ceiling; entries with a NULL ceiling never
produce a pair. -/
theorem bp_c3_amended (wl : List WishlistEntry) (rs : List BookResult)
    (e : WishlistEntry) (c : ℚ) (q : BookResult)
    (hc : e.max_price = some c) (hq : 0 < q.price) :
    ((e, q) ∈ check_wishlist_deals wl rs ↔
      e ∈ wl ∧ q ∈ rs ∧
        ((e.isbn ≠ "" ∧ q.isbn ≠ "" ∧ e.isbn = q.isbn) ∨
          List.IsInfix (e.title.toList.map Char.toLower)
            (q.title.toList.map Char.toLower)) ∧
        q.total_price ≤ c) ∧
    ∀ (e' : WishlistEntry) (q' : BookResult), e'.max_price = none →
      (e', q') ∉ check_wishlist_deals wl rs := by
  constructor
  · rw [check_wishlist_deals_eq, List.mem_flatMap]
    constructor
    · rintro ⟨e2, he2mem, hin⟩
      cases hm : e2.max_price with
      | none =>
        rw [hm] at hin
        simp at hin
      | some c2 =>
        rw [hm] at hin
        simp only [List.mem_map, List.mem_filter, Prod.mk.injEq] at hin
        obtain ⟨r, ⟨hrmem, hcond⟩, he2, hr⟩ := hin
        subst he2
        subst hr
        rw [hc] at hm
        injection hm with hcc
        subst hcc
        simp only [Bool.and_eq_true, Bool.or_eq_true, Bool.not_eq_true,
          decide_eq_true_eq] at hcond
        refine ⟨he2mem, hrmem, ?_, hcond.2.2⟩
        rcases hcond.2.1 with hi | ht
        · left
          unfold isbnMatch at hi
          simp at hi
          exact ⟨hi.1, fun hqe => hi.1 (hi.2.trans hqe), hi.2⟩
        · right
          exact (listIsInfixOf_iff _ _).mp ht
    · rintro ⟨hemem, hqmem, hmatch, hle⟩
      refine ⟨e, hemem, ?_⟩
      rw [hc]
      simp only [List.mem_map, List.mem_filter, Prod.mk.injEq]
      refine ⟨q, ⟨hqmem, ?_⟩, trivial, rfl⟩
      have h1 : ¬(q.price ≤ 0) := not_le.mpr hq
      have h2 : (isbnMatch e q || titleMatch e q) = true := by
        rcases hmatch with ⟨hne, hqne, heq⟩ | hinf
        · have : isbnMatch e q = true := by
            unfold isbnMatch
            simp [hne, hqne, heq]
          simp [this]
        · have : titleMatch e q = true := (listIsInfixOf_iff _ _).mpr hinf
          simp [this]
      simp [h1, h2, hle]
  · intro e' q' hnone hmem
    rw [check_wishlist_deals_eq, List.mem_flatMap] at hmem
    obtain ⟨e2, _, hin⟩ := hmem
    cases hm : e2.max_price with
    | none =>
      rw [hm] at hin
      simp at hin
    | some c2 =>
      rw [hm] at hin
      simp only [List.mem_map, List.mem_filter, Prod.mk.injEq] at hin
      obtain ⟨r, _, he2, _⟩ := hin
      rw [he2, hnone] at hm
      cases hm

/-- C3 amended, witnessed on the spec's Dune example: the 15.00 deluxe quote
is matched under the 20.00 ceiling, the 25.00 one is not. -/
theorem bp_c3_amended_witness :
    (entryDune, quoteDeluxe) ∈
      check_wishlist_deals [entryDune] [quoteDeluxe, quoteExpensive] ∧
    (entryDune, quoteExpensive) ∉
      check_wishlist_deals [entryDune] [quoteDeluxe, quoteExpensive] := by
  have h1 := bp_c3_amended [entryDune] [quoteDeluxe, quoteExpensive]
    entryDune 20 quoteDeluxe rfl (by norm_num [quoteDeluxe])
  have h2 := bp_c3_amended [entryDune] [quoteDeluxe, quoteExpensive]
    entryDune 20 quoteExpensive rfl (by norm_num [quoteExpensive])
  constructor
  · refine (h1.1).mpr ⟨List.mem_cons_self _ _, List.mem_cons_self _ _,
      Or.inr ?_, by norm_num [quoteDeluxe, BookResult.total_price]⟩
    exact (listIsInfixOf_iff _ _).mp (by decide)
  · intro hmem
    have hle := ((h2.1).mp hmem).2.2.2
    norm_num [quoteExpensive, BookResult.total_price] at hle

end BookFinder
